import Mathlib

/-!
Verification of the execution/scheduler core (src/rt/execution.rs) of the
loom concurrency-testing engine, as a shallow embedding in Lean.

The embedding translates the orchestrator (Execution::new, new_thread, step,
schedule, Id::new) directly from the Rust source.  The external collaborators
that the source consumes only through their contracts (the branch ledger
Path, the thread set, the object/access store, vector clocks and access
records) are not part of the source tree; they are modelled from the spec of
their interfaces.  The branch ledger's own decision policy (which thread a
branch selects, whether more permutations remain) is external nondeterminism
and is modelled by pre-recorded decision streams carried inside the ledger
state, so every theorem below quantifies over all possible ledger behaviour.
The process-global atomic id counter is modelled by threading the counter
value explicitly.
-/

namespace Loom

/-- Runnability states of a simulated thread (spec section 5). -/
inductive ThreadState where
  | Runnable
  | Yield
  | Disabled
  | Terminated
deriving DecidableEq, Repr

/-- Execution identity, a wrapper around the value drawn from the
process-global counter (execution.rs, struct Id). -/
structure Id where
  val : Nat
deriving DecidableEq, Repr

/-- Translation of Id::new (execution.rs lines 252-262): the process-global
atomic counter is modelled by passing the counter state explicitly; the call
returns the issued identity together with the new counter state. -/
def Id.new (c : Nat) : Id × Nat := (⟨c⟩, c + 1)

/-- Modelled from the spec: element-wise join (maximum) of two vector
clocks; entries missing from the shorter clock are treated as zero. -/
def joinVV : List Nat → List Nat → List Nat
  | [], ys => ys
  | x :: xs, [] => x :: xs
  | x :: xs, y :: ys => max x y :: joinVV xs ys

/-- Modelled from the spec: increment entry i of a vector clock by one
(the Rust clock index-assignment vv of i += 1). -/
def bump : List Nat → Nat → List Nat
  | [], _ => []
  | x :: xs, 0 => (x + 1) :: xs
  | x :: xs, n + 1 => x :: bump xs n

/-- Modelled from the spec glossary: entrywise comparison of vector clocks;
every entry of the first clock must be at most the corresponding entry of
the second (missing entries are zero). -/
def vvLe : List Nat → List Nat → Bool
  | [], _ => true
  | x :: xs, [] => decide (x = 0) && vvLe xs []
  | x :: xs, y :: ys => decide (x ≤ y) && vvLe xs ys

/-- Modelled from the spec: a recorded access to a shared object — the
branch-decision position at which it occurred and a snapshot of the acting
thread's DPOR vector clock.  Immutable once created. -/
structure Access where
  path_id : Nat
  version : List Nat
deriving DecidableEq, Repr

/-- Modelled from the spec: Access construction (Access::new). -/
def Access.new (pathId : Nat) (vv : List Nat) : Access := ⟨pathId, vv⟩

/-- Modelled from the spec glossary: an access happens-before a clock iff
every entry of the access's recorded clock is at most the corresponding
entry of that clock. -/
def Access.happens_before (a : Access) (vv : List Nat) : Bool :=
  vvLe a.version vv

/-- Modelled from the spec: one simulated thread — runnability state, the
general causality clock, the DPOR clock, the optional pending recorded
operation handle, the critical-section flag and the voluntary yield count. -/
structure Thread where
  state : ThreadState
  causality : List Nat
  dpor_vv : List Nat
  operation : Option Nat
  critical : Bool
  yield_count : Nat
deriving DecidableEq, Repr

/-- Modelled from the spec: a thread is runnable iff its state is Runnable. -/
def Thread.is_runnable (t : Thread) : Bool :=
  match t.state with
  | ThreadState.Runnable => true
  | _ => false

/-- Modelled from the spec: a thread is yielded iff its state is Yield. -/
def Thread.is_yield (t : Thread) : Bool :=
  match t.state with
  | ThreadState.Yield => true
  | _ => false

/-- Modelled from the spec: a thread is terminated iff its state is
Terminated. -/
def Thread.is_terminated (t : Thread) : Bool :=
  match t.state with
  | ThreadState.Terminated => true
  | _ => false

/-- Default thread returned on an out-of-range index; the Rust code would
panic there, and every theorem below only looks at in-range indices. -/
def defaultThread : Thread :=
  ⟨ThreadState.Terminated, [], [], none, false, 0⟩

/-- Modelled from the spec: a freshly allocated thread — runnable, clocks
initially all zero (sized by the set capacity), no pending operation. -/
def freshThread (cap : Nat) : Thread :=
  ⟨ThreadState.Runnable, List.replicate cap 0, List.replicate cap 0, none, false, 0⟩

/-- Modelled from the spec: the thread set — owner identity, capacity,
the densely indexed collection of threads, and the identifier of the
currently active thread, if any. -/
structure ThreadSet where
  execution_id : Id
  capacity : Nat
  threads : List Thread
  active : Option Nat
deriving DecidableEq, Repr

/-- Modelled from the spec: a thread set for a new identity, seeded with
one initial runnable thread, bounded at the given capacity. -/
def ThreadSet.new (id : Id) (cap : Nat) : ThreadSet :=
  ⟨id, cap, [freshThread cap], some 0⟩

/-- Modelled from the spec: identifier of the active thread (the Rust
accessor unwraps; unreachable states default to 0). -/
def ThreadSet.active_id (s : ThreadSet) : Nat := s.active.getD 0

/-- Thread stored at index i (the Rust indexing operation; out-of-range
indices, which would panic in Rust, give the default thread). -/
def threadAt (s : ThreadSet) (i : Nat) : Thread :=
  (s.threads[i]?).getD defaultThread

/-- Modelled from the spec: allocate a new thread in the set — fails at the
capacity limit; the new thread's identifier is the next dense index. -/
def ThreadSet.new_thread (s : ThreadSet) : Option (Nat × ThreadSet) :=
  if s.threads.length < s.capacity then
    some (s.threads.length, { s with threads := s.threads ++ [freshThread s.capacity] })
  else
    none

/-- Modelled from the spec: reset the thread set for a new identity. -/
def ThreadSet.clear (s : ThreadSet) (id : Id) : ThreadSet :=
  ThreadSet.new id s.capacity

/-- Modelled from the spec: the object/access store — owner identity plus,
per operation handle, the most recent conflicting accesses.  The conflict
policy itself is external; the store is keyed by the operation handle. -/
structure Store where
  execution_id : Id
  map : List (Nat × List Access)
deriving DecidableEq, Repr

/-- Modelled from the spec: an empty store for a new identity. -/
def Store.new (id : Id) : Store := ⟨id, []⟩

/-- Lookup in the association list underlying the store. -/
def assocFind : List (Nat × List Access) → Nat → Option (List Access)
  | [], _ => none
  | (k, v) :: rest, op => if k = op then some v else assocFind rest op

/-- Replace (or insert) the entry for a key in the association list
underlying the store. -/
def assocPut : List (Nat × List Access) → Nat → List Access → List (Nat × List Access)
  | [], op, v => [(op, v)]
  | (k, w) :: rest, op, v =>
    if k = op then (op, v) :: rest else (k, w) :: assocPut rest op v

/-- Modelled from the spec: the most recent conflicting accesses recorded
for an operation handle. -/
def Store.last_dependent_accesses (s : Store) (op : Nat) : List Access :=
  (assocFind s.map op).getD []

/-- Modelled from the spec: record the latest access for an operation
handle, replacing the previously recorded ones. -/
def Store.set_last_access (s : Store) (op : Nat) (a : Access) : Store :=
  { s with map := assocPut s.map op [a] }

/-- Modelled from the spec: reset the store for the next permutation. -/
def Store.clear (s : Store) : Store := { s with map := [] }

/-- Per-thread classification handed to the branch ledger
(rt::path::Thread in the source). -/
inductive ThreadClass where
  | Active
  | Yield
  | Disabled
  | Skip
deriving DecidableEq, Repr

/-- Modelled from the spec: the branch/backtrack ledger — the configured
limits, the current branch position, the registered backtrack obligations,
and the ledger's own decision policy abstracted as pre-recorded streams:
one selected thread per branch decision, one more-permutations-remain
answer per advancement. -/
structure Path where
  max_branches : Nat
  preemption_bound : Option Nat
  pos : Nat
  backtracks : List (Nat × Nat)
  choices : List (Option Nat)
  steps : List Bool
deriving DecidableEq, Repr

/-- Modelled from the spec: a fresh ledger configured with the branch and
preemption limits; the decision streams are the model's stand-in for the
ledger's internal policy. -/
def Path.new (mb : Nat) (pb : Option Nat) (choices : List (Option Nat))
    (steps : List Bool) : Path :=
  ⟨mb, pb, 0, [], choices, steps⟩

/-- Modelled from the spec: register a backtrack obligation at an earlier
branch position, naming a thread. -/
def Path.backtrack (p : Path) (pos thId : Nat) : Path :=
  { p with backtracks := p.backtracks ++ [(pos, thId)] }

/-- Modelled from the spec: branch a decision given the per-thread
classification, returning the thread the ledger selects (normally the
Active candidate, possibly overridden by a recorded backtrack obligation —
here drawn from the decision stream, so all behaviours are covered) and
advancing the branch position. -/
def Path.branch_thread (p : Path) (_execId : Id) (_classes : List ThreadClass) :
    Option Nat × Path :=
  match p.choices with
  | [] => (none, { p with pos := p.pos + 1 })
  | c :: rest => (c, { p with pos := p.pos + 1, choices := rest })

/-- Modelled from the spec: advance the ledger to the next permutation;
the boolean says whether more permutations remain (the ledger itself
decides exhaustion). -/
def Path.step (p : Path) : Bool × Path :=
  match p.steps with
  | [] => (false, p)
  | b :: rest => (b, { p with steps := rest })

/-- Translation of struct Execution (execution.rs lines 7-29): the
orchestrator state for one permutation. -/
structure Execution where
  id : Id
  path : Path
  threads : ThreadSet
  objects : Store
  raw_allocations : List (Nat × Nat)
  max_threads : Nat
  max_history : Nat
  log : Bool
deriving DecidableEq, Repr

/-- Translation of Execution::new (execution.rs lines 39-57).  The decision
streams for the modelled ledger are extra model parameters; the counter for
the global id generator is threaded explicitly. -/
def Execution.new (max_threads max_branches : Nat) (preemption_bound : Option Nat)
    (choices : List (Option Nat)) (steps : List Bool) (c : Nat) : Execution × Nat :=
  let idc := Id.new c
  ({ id := idc.1
     path := Path.new max_branches preemption_bound choices steps
     threads := ThreadSet.new idc.1 max_threads
     objects := Store.new idc.1
     raw_allocations := []
     max_threads := max_threads
     max_history := 7
     log := false }, idc.2)

/-- Translation of Execution::new_thread (execution.rs lines 60-75): the new
thread joins both of its clocks with the active thread's, then the new
thread's own causality entry and the active thread's own causality entry
are each incremented by one.  Failure of the external thread set (capacity,
or a panic on a missing active thread) is modelled by none. -/
def Execution.new_thread (e : Execution) : Option (Nat × Execution) :=
  match e.threads.new_thread with
  | none => none
  | some (thread_id, ts) =>
    match e.threads.active with
    | none => none
    | some active_id =>
      if active_id < e.threads.threads.length then
        let active := threadAt e.threads active_id
        let newTh := threadAt ts thread_id
        let joined :=
          { newTh with
              causality := joinVV newTh.causality active.causality
              dpor_vv := joinVV newTh.dpor_vv active.dpor_vv }
        let newTh2 := { joined with causality := bump joined.causality thread_id }
        let active2 := { active with causality := bump active.causality active_id }
        let ts2 := { ts with threads := (ts.threads.set thread_id newTh2).set active_id active2 }
        some (thread_id, { e with threads := ts2 })
      else
        none

/-- Translation of Execution::step (execution.rs lines 78-108): a fresh id
is drawn, the object store and the raw-allocation table are cleared, the
ledger is advanced; if the ledger reports no more permutations the result
is none, otherwise a fresh orchestrator state with the same limits and log
setting, the advanced ledger, and the thread set reset for the new id. -/
def Execution.step (e : Execution) (c : Nat) : Option Execution × Nat :=
  let idc := Id.new c
  let objects := e.objects.clear
  let sp := e.path.step
  if sp.1 then
    (some
      { id := idc.1
        path := sp.2
        threads := e.threads.clear idc.1
        objects := objects
        raw_allocations := []
        max_threads := e.max_threads
        max_history := e.max_history
        log := e.log }, idc.2)
  else
    (none, idc.2)

/-- Inner loop of the race-detection phase of schedule (execution.rs lines
124-132): for one thread with a pending operation, walk its last dependent
accesses and register a backtrack obligation for every access that did not
happen-before the thread's DPOR clock. -/
def threadBacktracks (accesses : List Access) (vv : List Nat) (i : Nat) (p : Path) : Path :=
  match accesses with
  | [] => p
  | a :: rest =>
    threadBacktracks rest vv i
      (if a.happens_before vv then p else p.backtrack a.path_id i)

/-- Outer loop of the race-detection phase of schedule (execution.rs lines
118-133): threads without a pending operation are skipped. -/
def backtrackLoop (objs : Store) : Nat → List Thread → Path → Path
  | _, [], p => p
  | i, th :: rest, p =>
    backtrackLoop objs (i + 1) rest
      (match th.operation with
       | none => p
       | some op => threadBacktracks (objs.last_dependent_accesses op) th.dpor_vv i p)

/-- Yield count of the thread at an index (the Rust indexing into the
thread set inside the candidate-selection loop). -/
def ycAt (all : List Thread) (j : Nat) : Nat :=
  ((all[j]?).map Thread.yield_count).getD 0

/-- Candidate-selection loop of schedule (execution.rs lines 143-155): among
runnable threads keep the one with strictly fewest voluntary yields,
scanning in index order, so ties keep the lowest identifier. -/
def minYieldLoop (all : List Thread) : Nat → List Thread → Option Nat → Option Nat
  | _, [], init => init
  | i, th :: rest, init =>
    if th.is_runnable then
      match init with
      | some j =>
        if th.yield_count < ycAt all j then
          minYieldLoop all (i + 1) rest (some i)
        else
          minYieldLoop all (i + 1) rest (some j)
      | none => minYieldLoop all (i + 1) rest (some i)
    else
      minYieldLoop all (i + 1) rest init

/-- Initial-candidate selection of schedule (execution.rs lines 135-156):
keep the active thread if it is runnable, otherwise run the
minimum-yield-count scan over all threads. -/
def initialCandidate (s : ThreadSet) : Option Nat :=
  if (threadAt s s.active_id).is_runnable then
    some s.active_id
  else
    minYieldLoop s.threads 0 s.threads none

/-- Classification loop of schedule (execution.rs lines 160-176): the
closure handed to the ledger, carrying the mutable candidate through the
scan and classifying every thread as Active, Yield, Disabled or Skip. -/
def classifyLoop : List Thread → Nat → Option Nat → List ThreadClass
  | [], _, _ => []
  | th :: rest, i, init =>
    let init2 := if init = none ∧ th.is_runnable then some i else init
    let c :=
      if init2 = some i then ThreadClass.Active
      else if th.is_yield then ThreadClass.Yield
      else if ¬ th.is_runnable then ThreadClass.Disabled
      else ThreadClass.Skip
    c :: classifyLoop rest (i + 1) init2

/-- Decision phase of schedule (execution.rs lines 118-176): run the
race-detection loop, build the classification, and branch the decision
through the ledger, yielding the selected thread and the updated ledger. -/
def scheduleDecision (e : Execution) : Option Nat × Path :=
  Path.branch_thread
    (backtrackLoop e.objects 0 e.threads.threads e.path)
    e.id
    (classifyLoop e.threads.threads 0 (initialCandidate e.threads))

/-- Per-thread identifier and state dump used in the deadlock abort message
(execution.rs lines 190-193). -/
def statesDump : Nat → List Thread → List (Nat × ThreadState)
  | _, [] => []
  | i, th :: rest => (i, th.state) :: statesDump (i + 1) rest

/-- Reactivation loop of schedule (execution.rs lines 216-220): every
yielded thread other than the newly selected one becomes runnable again. -/
def reactivateLoop : Nat → List Thread → Option Nat → List Thread
  | _, [], _ => []
  | i, th :: rest, nxt =>
    (if th.is_yield ∧ some i ≠ nxt then { th with state := ThreadState.Runnable } else th)
      :: reactivateLoop (i + 1) rest nxt

/-- Result of one scheduling decision: either the updated state together
with the switch flag, or the fatal deadlock abort carrying the per-thread
state dump (the Rust assert message). -/
inductive SchedResult where
  | ok (e : Execution) (switched : Bool)
  | deadlock (dump : List (Nat × ThreadState))
deriving DecidableEq, Repr

/-- Translation of Execution::schedule (execution.rs lines 111-227): race
detection and backtrack seeding, candidate selection, branching through the
ledger, the deadlock check, the causal update and access recording for the
selected thread, reactivation of yielded threads, and the preemption flag
(whether the selected thread differs from the previously active one). -/
def Execution.schedule (e : Execution) : SchedResult :=
  let curr := e.threads.active_id
  let pathId := (backtrackLoop e.objects 0 e.threads.threads e.path).pos
  match scheduleDecision e with
  | (none, path2) =>
    if e.threads.threads.all Thread.is_terminated then
      SchedResult.ok
        { e with path := path2, threads := { e.threads with active := none } } true
    else
      SchedResult.deadlock (statesDump 0 e.threads.threads)
  | (some t, path2) =>
    let th := threadAt e.threads t
    match th.operation with
    | some op =>
      let joined :=
        (e.objects.last_dependent_accesses op).foldl
          (fun v a => joinVV v a.version) th.dpor_vv
      let newvv := bump joined t
      let acc := Access.new pathId newvv
      let ts2 :=
        { e.threads with
            active := some t
            threads := e.threads.threads.set t { th with dpor_vv := newvv } }
      let ts3 := { ts2 with threads := reactivateLoop 0 ts2.threads (some t) }
      SchedResult.ok
        { e with
            path := path2
            threads := ts3
            objects := e.objects.set_last_access op acc }
        (decide (curr ≠ t))
    | none =>
      let ts3 :=
        { e.threads with
            active := some t
            threads := reactivateLoop 0 e.threads.threads (some t) }
      SchedResult.ok { e with path := path2, threads := ts3 } (decide (curr ≠ t))

/-- Translation of Execution::set_critical (execution.rs lines 234-236). -/
def Execution.set_critical (e : Execution) : Execution :=
  let i := e.threads.active_id
  { e with threads :=
      { e.threads with threads := e.threads.threads.set i { threadAt e.threads i with critical := true } } }

/-- Translation of Execution::unset_critical (execution.rs lines 238-240). -/
def Execution.unset_critical (e : Execution) : Execution :=
  let i := e.threads.active_id
  { e with threads :=
      { e.threads with threads := e.threads.threads.set i { threadAt e.threads i with critical := false } } }

/-- Entry i of a vector clock (missing entries are zero). -/
def entry (v : List Nat) (i : Nat) : Nat := (v[i]?).getD 0

/-- Whether the thread at index k of the collection is runnable (false for
indices outside the collection). -/
def runnableAt (all : List Thread) (k : Nat) : Bool :=
  ((all[k]?).map Thread.is_runnable).getD false

/-- Minimality by yield count with ties broken by lowest identifier:
thread j precedes thread k in the candidate order. -/
def lexMin (all : List Thread) (j k : Nat) : Prop :=
  ycAt all j < ycAt all k ∨ (ycAt all j = ycAt all k ∧ j ≤ k)

/-- Entry i of the causality clock of the thread at index t (zero when the
thread or the entry does not exist). -/
def causAt (e : Execution) (t i : Nat) : Nat :=
  ((e.threads.threads[t]?).map (fun th => entry th.causality i)).getD 0

/-- Entry i of the DPOR clock of the thread at index t (zero when the
thread or the entry does not exist). -/
def dporAt (e : Execution) (t i : Nat) : Nat :=
  ((e.threads.threads[t]?).map (fun th => entry th.dpor_vv i)).getD 0

/-- Orchestrator operations performed within one run. -/
inductive RtOp where
  | spawn
  | sched
deriving DecidableEq, Repr

/-- Apply one orchestrator operation to a state; none if the operation
fails (capacity, panic, deadlock abort). -/
def applyOp : RtOp → Execution → Option Execution
  | RtOp.spawn, e => (e.new_thread).map Prod.snd
  | RtOp.sched, e =>
    match e.schedule with
    | SchedResult.ok x _ => some x
    | SchedResult.deadlock _ => none

end Loom

namespace Loom

/-! Concrete sample states used by the witness theorems. -/

/-- Sample state: two runnable threads, thread 0 has a pending operation on
handle 5 whose recorded last access does not happen-before thread 0's DPOR
clock, and the ledger's next decision selects thread 0. -/
def sampleA : Execution :=
  { id := ⟨0⟩
    path :=
      { max_branches := 10, preemption_bound := none, pos := 4, backtracks := []
        choices := [some 0], steps := [true] }
    threads :=
      { execution_id := ⟨0⟩, capacity := 2
        threads :=
          [{ state := ThreadState.Runnable, causality := [1, 0], dpor_vv := [1, 0]
             operation := some 5, critical := false, yield_count := 0 },
           { state := ThreadState.Runnable, causality := [0, 1], dpor_vv := [0, 1]
             operation := none, critical := false, yield_count := 0 }]
        active := some 0 }
    objects := { execution_id := ⟨0⟩, map := [(5, [{ path_id := 3, version := [0, 1] }])] }
    raw_allocations := []
    max_threads := 2
    max_history := 7
    log := false }

/-- State reached from sampleA by one scheduling decision. -/
def sampleA2 : Execution :=
  match sampleA.schedule with
  | SchedResult.ok x _ => x
  | SchedResult.deadlock _ => sampleA

/-- Sample state: one thread, room to spawn a second. -/
def sampleB : Execution :=
  { id := ⟨0⟩
    path :=
      { max_branches := 10, preemption_bound := none, pos := 0, backtracks := []
        choices := [], steps := [] }
    threads :=
      { execution_id := ⟨0⟩, capacity := 2
        threads :=
          [{ state := ThreadState.Runnable, causality := [3, 0], dpor_vv := [2, 0]
             operation := none, critical := false, yield_count := 0 }]
        active := some 0 }
    objects := { execution_id := ⟨0⟩, map := [] }
    raw_allocations := []
    max_threads := 2
    max_history := 7
    log := false }

/-- State reached from sampleB by spawning a thread. -/
def sampleB2 : Execution :=
  match sampleB.new_thread with
  | some (_, x) => x
  | none => sampleB

/-- Sample state: the ledger selects no thread while the only thread is
disabled, so the scheduling decision must abort as a deadlock. -/
def sampleC : Execution :=
  { sampleB with
      path := { sampleB.path with choices := [] }
      threads :=
        { sampleB.threads with
            threads :=
              [{ state := ThreadState.Disabled, causality := [0, 0], dpor_vv := [0, 0]
                 operation := none, critical := false, yield_count := 0 }] } }

/-- Sample state: thread 0 runnable and selected, thread 1 yielded. -/
def sampleD : Execution :=
  { sampleB with
      path := { sampleB.path with choices := [some 0] }
      threads :=
        { sampleB.threads with
            threads :=
              [{ state := ThreadState.Runnable, causality := [0, 0], dpor_vv := [0, 0]
                 operation := none, critical := false, yield_count := 0 },
               { state := ThreadState.Yield, causality := [0, 0], dpor_vv := [0, 0]
                 operation := none, critical := false, yield_count := 3 }] } }

/-- State reached from sampleD by one scheduling decision. -/
def sampleD2 : Execution :=
  match sampleD.schedule with
  | SchedResult.ok x _ => x
  | SchedResult.deadlock _ => sampleD

/-- Sample thread set whose active thread is not runnable: thread 0 is
disabled, threads 1 and 2 are runnable with yield counts 2 and 1. -/
def sampleSet : ThreadSet :=
  { execution_id := ⟨0⟩, capacity := 3
    threads :=
      [{ state := ThreadState.Disabled, causality := [], dpor_vv := []
         operation := none, critical := false, yield_count := 0 },
       { state := ThreadState.Runnable, causality := [], dpor_vv := []
         operation := none, critical := false, yield_count := 2 },
       { state := ThreadState.Runnable, causality := [], dpor_vv := []
         operation := none, critical := false, yield_count := 1 }]
    active := some 0 }

end Loom

namespace Loom

/-! Basic indexing lemmas. -/

theorem getq_set_self {α : Type} :
    ∀ (l : List α) (i : Nat) (a : α), i < l.length → (l.set i a)[i]? = some a := by
  intro l
  induction l with
  | nil => intro i a h; simp at h
  | cons x xs ih =>
    intro i a h
    cases i with
    | zero => simp [List.set]
    | succ n =>
      simp only [List.set, List.getElem?_cons_succ]
      exact ih n a (Nat.lt_of_succ_lt_succ h)

theorem getq_set_ne {α : Type} :
    ∀ (l : List α) (i j : Nat) (a : α), i ≠ j → (l.set i a)[j]? = l[j]? := by
  intro l
  induction l with
  | nil => intro i j a _; simp [List.set]
  | cons x xs ih =>
    intro i j a hne
    cases i with
    | zero =>
      cases j with
      | zero => exact absurd rfl hne
      | succ m => simp [List.set]
    | succ n =>
      cases j with
      | zero => simp [List.set]
      | succ m =>
        simp only [List.set, List.getElem?_cons_succ]
        exact ih n m a (fun h => hne (by rw [h]))

theorem getq_append_lt {α : Type} :
    ∀ (l l2 : List α) (j : Nat), j < l.length → (l ++ l2)[j]? = l[j]? := by
  intro l
  induction l with
  | nil => intro l2 j h; simp at h
  | cons x xs ih =>
    intro l2 j h
    cases j with
    | zero => simp
    | succ m =>
      simp only [List.cons_append, List.getElem?_cons_succ]
      exact ih l2 m (Nat.lt_of_succ_lt_succ h)

theorem getq_append_len {α : Type} :
    ∀ (l : List α) (x : α), (l ++ [x])[l.length]? = some x := by
  intro l
  induction l with
  | nil => intro x; rfl
  | cons y ys ih =>
    intro x
    simp only [List.cons_append, List.length_cons, List.getElem?_cons_succ]
    exact ih x

/-! Vector-clock entry lemmas. -/

theorem entry_nil (i : Nat) : entry [] i = 0 := by
  simp [entry]

theorem entry_cons_zero (x : Nat) (xs : List Nat) : entry (x :: xs) 0 = x := by
  simp [entry]

theorem entry_cons_succ (x : Nat) (xs : List Nat) (i : Nat) :
    entry (x :: xs) (i + 1) = entry xs i := by
  simp [entry]

theorem entry_joinVV : ∀ (a b : List Nat) (i : Nat),
    entry (joinVV a b) i = max (entry a i) (entry b i) := by
  intro a
  induction a with
  | nil => intro b i; simp [joinVV, entry_nil]
  | cons x xs ih =>
    intro b i
    cases b with
    | nil =>
      cases i with
      | zero => simp [joinVV, entry_nil]
      | succ n => simp [joinVV, entry_nil, entry_cons_succ]
    | cons y ys =>
      cases i with
      | zero => simp [joinVV, entry_cons_zero]
      | succ n => simpa [joinVV, entry_cons_succ] using ih ys n

theorem entry_le_joinVV_left (a b : List Nat) (i : Nat) :
    entry a i ≤ entry (joinVV a b) i := by
  rw [entry_joinVV]; exact Nat.le_max_left _ _

theorem entry_le_bump : ∀ (v : List Nat) (j i : Nat),
    entry v i ≤ entry (bump v j) i := by
  intro v
  induction v with
  | nil => intro j i; simp [bump]
  | cons x xs ih =>
    intro j i
    cases j with
    | zero =>
      cases i with
      | zero => simp [bump, entry_cons_zero]
      | succ n => simp [bump, entry_cons_succ]
    | succ m =>
      cases i with
      | zero => simp [bump, entry_cons_zero]
      | succ n => simpa [bump, entry_cons_succ] using ih m n

theorem entry_le_foldl_join :
    ∀ (accs : List Access) (v : List Nat) (i : Nat),
      entry v i ≤ entry (accs.foldl (fun w a => joinVV w a.version) v) i := by
  intro accs
  induction accs with
  | nil => intro v i; exact Nat.le_refl _
  | cons a rest ih =>
    intro v i
    calc entry v i ≤ entry (joinVV v a.version) i := entry_le_joinVV_left _ _ _
      _ ≤ entry (rest.foldl (fun w a => joinVV w a.version) (joinVV v a.version)) i := ih _ i

/-! Characterization of the reactivation loop. -/

theorem reactivateLoop_getq :
    ∀ (l : List Thread) (i : Nat) (nxt : Option Nat) (j : Nat),
      (reactivateLoop i l nxt)[j]? =
        (l[j]?).map (fun th =>
          if th.is_yield ∧ some (i + j) ≠ nxt then { th with state := ThreadState.Runnable }
          else th) := by
  intro l
  induction l with
  | nil => intro i nxt j; simp [reactivateLoop]
  | cons th rest ih =>
    intro i nxt j
    cases j with
    | zero => simp [reactivateLoop]
    | succ m =>
      simp only [reactivateLoop, List.getElem?_cons_succ]
      rw [ih (i + 1) nxt m]
      have harith : i + (m + 1) = i + 1 + m := by omega
      rw [harith]

/-! Membership in the deadlock dump. -/

theorem statesDump_mem :
    ∀ (l : List Thread) (n i : Nat) (th : Thread),
      l[i]? = some th → (n + i, th.state) ∈ statesDump n l := by
  intro l
  induction l with
  | nil => intro n i th h; simp at h
  | cons x xs ih =>
    intro n i th h
    cases i with
    | zero =>
      simp only [List.getElem?_cons_zero, Option.some_inj] at h
      subst h
      simp [statesDump]
    | succ m =>
      simp only [List.getElem?_cons_succ] at h
      have := ih (n + 1) m th h
      have harith : n + (m + 1) = n + 1 + m := by omega
      rw [harith]
      exact List.mem_cons_of_mem _ this

/-! Characterization of the race-detection phase. -/

/-- Backtrack obligations contributed by the race-detection loop: one pair
per non-happens-before last dependent access of each thread with a pending
operation, tagged with that thread's index. -/
def seeds (objs : Store) : Nat → List Thread → List (Nat × Nat)
  | _, [] => []
  | i, th :: rest =>
    (match th.operation with
     | none => []
     | some op =>
       ((objs.last_dependent_accesses op).filter
         (fun a => ! a.happens_before th.dpor_vv)).map (fun a => (a.path_id, i)))
      ++ seeds objs (i + 1) rest

theorem threadBacktracks_eq :
    ∀ (accs : List Access) (vv : List Nat) (i : Nat) (p : Path),
      threadBacktracks accs vv i p =
        { p with backtracks :=
            p.backtracks ++
              (accs.filter (fun a => ! a.happens_before vv)).map (fun a => (a.path_id, i)) } := by
  intro accs
  induction accs with
  | nil => intro vv i p; simp [threadBacktracks]
  | cons a rest ih =>
    intro vv i p
    by_cases hb : a.happens_before vv = true
    · show threadBacktracks rest vv i
          (if a.happens_before vv then p else p.backtrack a.path_id i) = _
      rw [if_pos hb, ih]
      simp [List.filter_cons, hb]
    · have hb2 : a.happens_before vv = false := by simpa using hb
      show threadBacktracks rest vv i
          (if a.happens_before vv then p else p.backtrack a.path_id i) = _
      rw [if_neg hb, ih]
      simp [Path.backtrack, List.filter_cons, hb2, List.append_assoc]

theorem backtrackLoop_eq (objs : Store) :
    ∀ (ts : List Thread) (i : Nat) (p : Path),
      backtrackLoop objs i ts p =
        { p with backtracks := p.backtracks ++ seeds objs i ts } := by
  intro ts
  induction ts with
  | nil => intro i p; simp [backtrackLoop, seeds]
  | cons th rest ih =>
    intro i p
    cases hop : th.operation with
    | none => simp [backtrackLoop, hop, ih, seeds]
    | some op =>
      simp only [backtrackLoop, hop]
      rw [ih, threadBacktracks_eq]
      simp [seeds, hop, List.append_assoc]

theorem seeds_mem (objs : Store) :
    ∀ (ts : List Thread) (i : Nat) (q t : Nat),
      (q, t) ∈ seeds objs i ts ↔
        ∃ j th op a, ts[j]? = some th ∧ th.operation = some op ∧
          a ∈ objs.last_dependent_accesses op ∧
          a.happens_before th.dpor_vv = false ∧ a.path_id = q ∧ t = i + j := by
  intro ts
  induction ts with
  | nil =>
    intro i q t
    simp [seeds]
  | cons th rest ih =>
    intro i q t
    constructor
    · intro hmem
      simp only [seeds] at hmem
      rcases List.mem_append.mp hmem with hleft | hright
      · cases hop : th.operation with
        | none => rw [hop] at hleft; simp at hleft
        | some op =>
          rw [hop] at hleft
          rcases List.mem_map.mp hleft with ⟨a, ha, heq⟩
          rcases List.mem_filter.mp ha with ⟨hacc, hnb⟩
          refine ⟨0, th, op, a, by simp, hop, hacc, ?_, ?_, ?_⟩
          · simpa using hnb
          · exact congrArg Prod.fst heq
          · have := congrArg Prod.snd heq
            simp at this
            omega
      · rcases (ih (i + 1) q t).mp hright with ⟨j, th2, op, a, hj, hop, hacc, hnb, hq, ht⟩
        exact ⟨j + 1, th2, op, a, by simpa using hj, hop, hacc, hnb, hq, by omega⟩
    · intro hex
      rcases hex with ⟨j, th2, op, a, hj, hop, hacc, hnb, hq, ht⟩
      simp only [seeds]
      apply List.mem_append.mpr
      cases j with
      | zero =>
        left
        simp only [List.getElem?_cons_zero, Option.some_inj] at hj
        subst hj
        rw [hop]
        apply List.mem_map.mpr
        refine ⟨a, List.mem_filter.mpr ⟨hacc, by simp [hnb]⟩, ?_⟩
        simp [hq]
        omega
      | succ m =>
        right
        simp only [List.getElem?_cons_succ] at hj
        exact (ih (i + 1) q t).mpr ⟨m, th2, op, a, hj, hop, hacc, hnb, hq, by omega⟩

/-! Small facts about the modelled ledger. -/

theorem branch_thread_backtracks (p : Path) (id : Id) (cl : List ThreadClass) :
    (Path.branch_thread p id cl).2.backtracks = p.backtracks := by
  cases hc : p.choices <;> simp [Path.branch_thread, hc]

theorem backtrackLoop_pos (objs : Store) (ts : List Thread) (i : Nat) (p : Path) :
    (backtrackLoop objs i ts p).pos = p.pos := by
  rw [backtrackLoop_eq]

/-! Case equations for schedule, one per branch of the source control flow. -/

theorem schedule_none_terminated (e : Execution) (p2 : Path)
    (hdec : scheduleDecision e = (none, p2))
    (ht : e.threads.threads.all Thread.is_terminated = true) :
    e.schedule =
      SchedResult.ok
        { e with path := p2, threads := { e.threads with active := none } } true := by
  unfold Execution.schedule
  rw [hdec, ht]
  simp

theorem schedule_none_deadlock (e : Execution) (p2 : Path)
    (hdec : scheduleDecision e = (none, p2))
    (ht : e.threads.threads.all Thread.is_terminated = false) :
    e.schedule = SchedResult.deadlock (statesDump 0 e.threads.threads) := by
  unfold Execution.schedule
  rw [hdec, ht]
  simp

theorem schedule_some_op (e : Execution) (t : Nat) (p2 : Path) (op : Nat)
    (hdec : scheduleDecision e = (some t, p2))
    (hop : (threadAt e.threads t).operation = some op) :
    e.schedule =
      SchedResult.ok
        { e with
            path := p2
            threads :=
              { e.threads with
                  active := some t
                  threads :=
                    reactivateLoop 0
                      (e.threads.threads.set t
                        { threadAt e.threads t with
                            dpor_vv :=
                              bump
                                ((e.objects.last_dependent_accesses op).foldl
                                  (fun v a => joinVV v a.version)
                                  (threadAt e.threads t).dpor_vv) t })
                      (some t) }
            objects :=
              e.objects.set_last_access op
                (Access.new e.path.pos
                  (bump
                    ((e.objects.last_dependent_accesses op).foldl
                      (fun v a => joinVV v a.version)
                      (threadAt e.threads t).dpor_vv) t)) }
        (decide (e.threads.active_id ≠ t)) := by
  unfold Execution.schedule
  rw [hdec]
  simp only [hop, backtrackLoop_pos]

theorem schedule_some_noop (e : Execution) (t : Nat) (p2 : Path)
    (hdec : scheduleDecision e = (some t, p2))
    (hop : (threadAt e.threads t).operation = none) :
    e.schedule =
      SchedResult.ok
        { e with
            path := p2
            threads :=
              { e.threads with
                  active := some t
                  threads := reactivateLoop 0 e.threads.threads (some t) } }
        (decide (e.threads.active_id ≠ t)) := by
  unfold Execution.schedule
  rw [hdec]
  simp only [hop]

/-! Further supporting lemmas. -/

theorem getq_lt {α : Type} :
    ∀ (l : List α) (i : Nat) (a : α), l[i]? = some a → i < l.length := by
  intro l
  induction l with
  | nil => intro i a h; simp at h
  | cons x xs ih =>
    intro i a h
    cases i with
    | zero => simp
    | succ m =>
      simp only [List.getElem?_cons_succ] at h
      exact Nat.succ_lt_succ (ih m a h)

theorem getq_ge {α : Type} :
    ∀ (l : List α) (i : Nat), l.length ≤ i → l[i]? = none := by
  intro l
  induction l with
  | nil => intro i _; simp
  | cons x xs ih =>
    intro i h
    cases i with
    | zero => simp at h
    | succ m =>
      simp only [List.getElem?_cons_succ]
      exact ih m (Nat.le_of_succ_le_succ h)

theorem threadAt_eq (s : ThreadSet) (t : Nat) (th : Thread)
    (h : s.threads[t]? = some th) : threadAt s t = th := by
  simp [threadAt, h]

theorem active_id_eq (s : ThreadSet) (a : Nat) (h : s.active = some a) :
    s.active_id = a := by
  simp [ThreadSet.active_id, h]

theorem is_terminated_iff (th : Thread) :
    th.is_terminated = true ↔ th.state = ThreadState.Terminated := by
  cases h : th.state <;> simp [Thread.is_terminated, h]

theorem is_yield_iff (th : Thread) :
    th.is_yield = true ↔ th.state = ThreadState.Yield := by
  cases h : th.state <;> simp [Thread.is_yield, h]

theorem lexMin_antisymm (all : List Thread) (j k : Nat)
    (h1 : lexMin all j k) (h2 : lexMin all k j) : j = k := by
  rcases h1 with h1 | ⟨h1a, h1b⟩ <;> rcases h2 with h2 | ⟨h2a, h2b⟩ <;> omega

/-! Claim theorems. -/

/-- C1: in schedule, for every thread with a pending recorded operation and
every most-recent conflicting access to the same object, a backtrack
obligation is registered with the branch ledger at that access's branch
position, naming that thread, exactly when the access does not
happen-before the thread's DPOR clock; threads with no pending operation
contribute no registrations. -/
theorem schedule_backtrack_registration (e e2 : Execution) (r : Bool)
    (h : e.schedule = SchedResult.ok e2 r) (q t : Nat) :
    (q, t) ∈ e2.path.backtracks ↔
      ((q, t) ∈ e.path.backtracks ∨
        ∃ th op a, e.threads.threads[t]? = some th ∧ th.operation = some op ∧
          a ∈ e.objects.last_dependent_accesses op ∧
          a.happens_before th.dpor_vv = false ∧ a.path_id = q) := by
  rcases hdec : scheduleDecision e with ⟨next, p2⟩
  have hp2 : p2.backtracks = e.path.backtracks ++ seeds e.objects 0 e.threads.threads := by
    have h1 : (Path.branch_thread
        (backtrackLoop e.objects 0 e.threads.threads e.path) e.id
        (classifyLoop e.threads.threads 0 (initialCandidate e.threads))).2 = p2 := by
      rw [show Path.branch_thread
          (backtrackLoop e.objects 0 e.threads.threads e.path) e.id
          (classifyLoop e.threads.threads 0 (initialCandidate e.threads)) =
          scheduleDecision e from rfl, hdec]
    rw [← h1, branch_thread_backtracks, backtrackLoop_eq]
  have hpath : e2.path = p2 := by
    cases next with
    | none =>
      cases hterm : e.threads.threads.all Thread.is_terminated with
      | true =>
        rw [schedule_none_terminated e p2 hdec hterm] at h
        cases h
        rfl
      | false =>
        rw [schedule_none_deadlock e p2 hdec hterm] at h
        cases h
    | some t2 =>
      cases hop : (threadAt e.threads t2).operation with
      | some op =>
        rw [schedule_some_op e t2 p2 op hdec hop] at h
        cases h
        rfl
      | none =>
        rw [schedule_some_noop e t2 p2 hdec hop] at h
        cases h
        rfl
  rw [hpath, hp2, List.mem_append, seeds_mem]
  constructor
  · rintro (hold | ⟨j, th, op, a, hj, hop2, ha, hnb, hq, hidx⟩)
    · exact Or.inl hold
    · right
      have hjt : j = t := by omega
      subst hjt
      exact ⟨th, op, a, hj, hop2, ha, hnb, hq⟩
  · rintro (hold | ⟨th, op, a, hj, hop2, ha, hnb, hq⟩)
    · exact Or.inl hold
    · exact Or.inr ⟨t, th, op, a, hj, hop2, ha, hnb, hq, by omega⟩

/-- Witness for C1 at a concrete state: the recorded access at branch
position 3 races with thread 0's pending operation, so the pair (3, 0) is
registered. -/
theorem schedule_backtrack_registration_witness :
    sampleA.schedule = SchedResult.ok sampleA2 false ∧
      ((3, 0) ∈ sampleA2.path.backtracks ↔
        ((3, 0) ∈ sampleA.path.backtracks ∨
          ∃ th op a, sampleA.threads.threads[0]? = some th ∧ th.operation = some op ∧
            a ∈ sampleA.objects.last_dependent_accesses op ∧
            a.happens_before th.dpor_vv = false ∧ a.path_id = 3)) :=
  ⟨by decide, schedule_backtrack_registration sampleA sampleA2 false (by decide) 3 0⟩

/-- C2: in schedule, when the selected thread has a pending recorded
operation, its DPOR clock is joined with the clock of every last dependent
access and its own entry is then incremented by one, and the access
carrying the current branch position and the updated clock is recorded into
the store under the operation handle; when the selected thread has no
pending operation, neither the thread (in particular its DPOR clock) nor
the store changes. -/
theorem schedule_causal_update (e e2 : Execution) (r : Bool) (t : Nat)
    (th : Thread) (p2 : Path)
    (hdec : scheduleDecision e = (some t, p2))
    (h : e.schedule = SchedResult.ok e2 r)
    (hth : e.threads.threads[t]? = some th) :
    (∀ op, th.operation = some op →
      e2.threads.threads[t]? =
        some { th with dpor_vv := bump ((e.objects.last_dependent_accesses op).foldl (fun v a => joinVV v a.version) th.dpor_vv) t } ∧
      e2.objects =
        e.objects.set_last_access op
          (Access.new e.path.pos
            (bump ((e.objects.last_dependent_accesses op).foldl
              (fun v a => joinVV v a.version) th.dpor_vv) t))) ∧
    (th.operation = none →
      e2.threads.threads[t]? = some th ∧ e2.objects = e.objects) := by
  have hat : threadAt e.threads t = th := threadAt_eq _ _ _ hth
  have hlt : t < e.threads.threads.length := getq_lt _ _ _ hth
  constructor
  · intro op hop
    have hop2 : (threadAt e.threads t).operation = some op := by rw [hat, hop]
    rw [schedule_some_op e t p2 op hdec hop2] at h
    cases h
    constructor
    · show (reactivateLoop 0 (e.threads.threads.set t _) (some t))[t]? = _
      rw [reactivateLoop_getq, getq_set_self _ _ _ hlt]
      simp [hat]
    · show e.objects.set_last_access op _ = _
      rw [hat]
  · intro hop
    have hop2 : (threadAt e.threads t).operation = none := by rw [hat, hop]
    rw [schedule_some_noop e t p2 hdec hop2] at h
    cases h
    constructor
    · show (reactivateLoop 0 e.threads.threads (some t))[t]? = some th
      rw [reactivateLoop_getq, hth]
      simp
    · rfl

/-- Witness for C2 at a concrete state: thread 0 is selected with pending
operation 5; its DPOR clock becomes the join with the recorded access,
bumped at entry 0, and the new access is recorded at branch position 4. -/
theorem schedule_causal_update_witness :
    scheduleDecision sampleA = (some 0, sampleA2.path) ∧
      sampleA.schedule = SchedResult.ok sampleA2 false ∧
      sampleA.threads.threads[0]? = some
        { state := ThreadState.Runnable, causality := [1, 0], dpor_vv := [1, 0]
          operation := some 5, critical := false, yield_count := 0 } ∧
      (sampleA2.threads.threads[0]? =
        some { state := ThreadState.Runnable, causality := [1, 0]
               dpor_vv :=
                 bump ((sampleA.objects.last_dependent_accesses 5).foldl
                   (fun v a => joinVV v a.version) [1, 0]) 0
               operation := some 5, critical := false, yield_count := 0 } ∧
       sampleA2.objects =
         sampleA.objects.set_last_access 5
           (Access.new sampleA.path.pos
             (bump ((sampleA.objects.last_dependent_accesses 5).foldl
               (fun v a => joinVV v a.version) [1, 0]) 0))) :=
  ⟨by decide, by decide, by decide,
    (schedule_causal_update sampleA sampleA2 false 0
      { state := ThreadState.Runnable, causality := [1, 0], dpor_vv := [1, 0]
        operation := some 5, critical := false, yield_count := 0 }
      sampleA2.path (by decide) (by decide) (by decide)).1 5 rfl⟩

/-- C3: new_thread makes both clocks of the new thread the join of its
initial (all-zero) clock with the spawning thread's corresponding clock;
after the join the new thread's own causality entry and the parent's own
causality entry are each incremented by one; the call returns the new
thread's identifier, the next dense index. -/
theorem new_thread_spawn_edges (e e2 : Execution) (tid aid : Nat) (pTh : Thread)
    (h : e.new_thread = some (tid, e2))
    (ha : e.threads.active = some aid)
    (hp : e.threads.threads[aid]? = some pTh) :
    tid = e.threads.threads.length ∧
    e2.threads.threads[tid]? =
      some { state := ThreadState.Runnable
             causality := bump (joinVV (List.replicate e.threads.capacity 0) pTh.causality) tid
             dpor_vv := joinVV (List.replicate e.threads.capacity 0) pTh.dpor_vv
             operation := none, critical := false, yield_count := 0 } ∧
    e2.threads.threads[aid]? = some { pTh with causality := bump pTh.causality aid } := by
  have hlt : aid < e.threads.threads.length := getq_lt _ _ _ hp
  unfold Execution.new_thread ThreadSet.new_thread at h
  rw [ha] at h
  by_cases hcap : e.threads.threads.length < e.threads.capacity
  · rw [if_pos hcap] at h
    simp only [if_pos hlt, Option.some_inj] at h
    injection h with h1 h2
    subst h1
    subst h2
    refine ⟨rfl, ?_, ?_⟩
    · simp only [threadAt, getq_append_len, hp, Option.getD_some]
      rw [getq_set_ne _ _ _ _ (by omega)]
      rw [getq_set_self _ _ _ (by simp [List.length_append])]
      simp [freshThread]
    · simp only [threadAt, getq_append_len, hp, Option.getD_some]
      rw [getq_set_self _ _ _ (by simp [List.length_append]; omega)]
  · rw [if_neg hcap] at h
    cases h

/-- Witness for C3 at a concrete state: spawning from sampleB, the new
thread's causality is the join of zeros with the parent's clock bumped at
its own entry, and the parent's causality entry 0 is bumped. -/
theorem new_thread_spawn_edges_witness :
    sampleB.new_thread = some (1, sampleB2) ∧
      sampleB.threads.active = some 0 ∧
      sampleB.threads.threads[0]? = some
        { state := ThreadState.Runnable, causality := [3, 0], dpor_vv := [2, 0]
          operation := none, critical := false, yield_count := 0 } ∧
      (1 = sampleB.threads.threads.length ∧
       sampleB2.threads.threads[1]? =
         some { state := ThreadState.Runnable
                causality := bump (joinVV (List.replicate sampleB.threads.capacity 0) [3, 0]) 1
                dpor_vv := joinVV (List.replicate sampleB.threads.capacity 0) [2, 0]
                operation := none, critical := false, yield_count := 0 } ∧
       sampleB2.threads.threads[0]? =
         some { state := ThreadState.Runnable, causality := bump [3, 0] 0, dpor_vv := [2, 0]
                operation := none, critical := false, yield_count := 0 }) :=
  ⟨by decide, by decide, by decide,
    new_thread_spawn_edges sampleB sampleB2 1 0
      { state := ThreadState.Runnable, causality := [3, 0], dpor_vv := [2, 0]
        operation := none, critical := false, yield_count := 0 }
      (by decide) (by decide) (by decide)⟩

/-- C4: when the branch ledger selects no thread, schedule completes
without aborting exactly when every thread is terminated; in every other
configuration it aborts as a deadlock, and the abort report lists every
thread's identifier and state. -/
theorem schedule_deadlock_check (e : Execution)
    (hnone : (scheduleDecision e).1 = none) :
    ((∀ th ∈ e.threads.threads, th.state = ThreadState.Terminated) →
      e.schedule =
        SchedResult.ok
          { e with path := (scheduleDecision e).2
                   threads := { e.threads with active := none } } true) ∧
    ((∃ th ∈ e.threads.threads, ¬ th.state = ThreadState.Terminated) →
      e.schedule = SchedResult.deadlock (statesDump 0 e.threads.threads) ∧
      ∀ i th, e.threads.threads[i]? = some th →
        (i, th.state) ∈ statesDump 0 e.threads.threads) := by
  have hdec : scheduleDecision e = (none, (scheduleDecision e).2) := by
    rw [← hnone]
  constructor
  · intro hall
    have hterm : e.threads.threads.all Thread.is_terminated = true := by
      rw [List.all_eq_true]
      intro th hmem
      rw [is_terminated_iff]
      exact hall th hmem
    exact schedule_none_terminated e _ hdec hterm
  · intro hex
    have hterm : e.threads.threads.all Thread.is_terminated = false := by
      rcases hex with ⟨th, hmem, hnt⟩
      cases hall : e.threads.threads.all Thread.is_terminated with
      | false => rfl
      | true =>
        rw [List.all_eq_true] at hall
        exact absurd ((is_terminated_iff th).mp (hall th hmem)) hnt
    refine ⟨schedule_none_deadlock e _ hdec hterm, ?_⟩
    intro i th hi
    have := statesDump_mem e.threads.threads 0 i th hi
    rwa [Nat.zero_add] at this

/-- Witness for C4 at a concrete state: sampleC's ledger selects no thread
while its only thread is disabled, so schedule aborts with the dump. -/
theorem schedule_deadlock_check_witness :
    (scheduleDecision sampleC).1 = none ∧
      ((∀ th ∈ sampleC.threads.threads, th.state = ThreadState.Terminated) →
        sampleC.schedule =
          SchedResult.ok
            { sampleC with path := (scheduleDecision sampleC).2
                           threads := { sampleC.threads with active := none } } true) ∧
      ((∃ th ∈ sampleC.threads.threads, ¬ th.state = ThreadState.Terminated) →
        sampleC.schedule = SchedResult.deadlock (statesDump 0 sampleC.threads.threads) ∧
        ∀ i th, sampleC.threads.threads[i]? = some th →
          (i, th.state) ∈ statesDump 0 sampleC.threads.threads) :=
  ⟨by decide, schedule_deadlock_check sampleC (by decide)⟩

/-- C5: step returns the terminal signal exactly when the ledger reports
the decision space exhausted; otherwise the produced state keeps the
consumed state's limits and log setting, carries the freshly issued
identity, has cleared object store and raw-allocation table, a thread set
reset for the new identity, and the advanced ledger carried forward. -/
theorem step_reset (e : Execution) (c : Nat) :
    ((e.step c).1 = none ↔ (e.path.step).1 = false) ∧
    (∀ e2, (e.step c).1 = some e2 →
      e2.max_threads = e.max_threads ∧ e2.max_history = e.max_history ∧
      e2.log = e.log ∧ e2.id = ⟨c⟩ ∧ (e.step c).2 = c + 1 ∧
      e2.objects.map = [] ∧ e2.raw_allocations = [] ∧
      e2.threads = ThreadSet.new ⟨c⟩ e.threads.capacity ∧
      e2.path = (e.path.step).2 ∧ e2.path.backtracks = e.path.backtracks) := by
  have hback : (e.path.step).2.backtracks = e.path.backtracks := by
    cases hs : e.path.steps <;> simp [Path.step, hs]
  unfold Execution.step
  cases hb : (e.path.step).1 with
  | true =>
    simp only [hb, if_true]
    constructor
    · simp
    · intro e2 he2
      simp only [Option.some_inj] at he2
      subst he2
      refine ⟨rfl, rfl, rfl, rfl, rfl, rfl, rfl, rfl, rfl, hback⟩
  | false =>
    simp only [hb, if_false]
    constructor
    · simp
    · intro e2 he2
      simp at he2

/-- Witness for C5 at a concrete state: stepping sampleA at counter 7
produces a fresh state with identity 7 and the ledger carried forward. -/
theorem step_reset_witness :
    ((sampleA.step 7).1 = none ↔ (sampleA.path.step).1 = false) ∧
      (∀ e2, (sampleA.step 7).1 = some e2 →
        e2.max_threads = sampleA.max_threads ∧ e2.max_history = sampleA.max_history ∧
        e2.log = sampleA.log ∧ e2.id = ⟨7⟩ ∧ (sampleA.step 7).2 = 7 + 1 ∧
        e2.objects.map = [] ∧ e2.raw_allocations = [] ∧
        e2.threads = ThreadSet.new ⟨7⟩ sampleA.threads.capacity ∧
        e2.path = (sampleA.path.step).2 ∧ e2.path.backtracks = sampleA.path.backtracks) :=
  step_reset sampleA 7

/-- Invariant of the candidate-selection loop: scanning a suffix whose
entries agree with the full collection, starting from a sound best-so-far,
yields either no candidate (no runnable thread anywhere) or a runnable
thread minimal in the yield-count-then-identifier order. -/
theorem minYieldLoop_spec (all : List Thread) :
    ∀ (rest : List Thread) (i : Nat) (init : Option Nat),
      (∀ j : Nat, rest[j]? = all[i + j]?) →
      (init = none → ∀ k, k < i → runnableAt all k = false) →
      (∀ j0, init = some j0 → j0 < i ∧ runnableAt all j0 = true ∧
        ∀ k, k < i → runnableAt all k = true → lexMin all j0 k) →
      ((minYieldLoop all i rest init = none → ∀ k, runnableAt all k = false) ∧
       (∀ j0, minYieldLoop all i rest init = some j0 →
          runnableAt all j0 = true ∧ ∀ k, runnableAt all k = true → lexMin all j0 k)) := by
  intro rest
  induction rest with
  | nil =>
    intro i init hsuf hnone hsome
    have hge : ∀ k, i ≤ k → runnableAt all k = false := by
      intro k hk
      have hnil : all[k]? = none := by
        have h1 := hsuf (k - i)
        simp only [List.getElem?_nil] at h1
        have h2 : i + (k - i) = k := by omega
        rw [h2] at h1
        exact h1.symm
      simp [runnableAt, hnil]
    constructor
    · intro hres k
      simp only [minYieldLoop] at hres
      by_cases hk : k < i
      · exact hnone hres k hk
      · exact hge k (by omega)
    · intro j0 hres
      simp only [minYieldLoop] at hres
      rcases hsome j0 hres with ⟨hj0i, hrun, hlex⟩
      refine ⟨hrun, ?_⟩
      intro k hk
      by_cases hki : k < i
      · exact hlex k hki hk
      · exact absurd hk (by simp [hge k (by omega)])
  | cons th rest2 ih =>
    intro i init hsuf hnone hsome
    have h0 : all[i]? = some th := by
      have h1 := hsuf 0
      simpa using h1.symm
    have hruni : runnableAt all i = th.is_runnable := by simp [runnableAt, h0]
    have hyci : ycAt all i = th.yield_count := by simp [ycAt, h0]
    have hsuf2 : ∀ j : Nat, rest2[j]? = all[(i + 1) + j]? := by
      intro j
      have h1 := hsuf (j + 1)
      simp only [List.getElem?_cons_succ] at h1
      rw [show i + (j + 1) = i + 1 + j from by omega] at h1
      exact h1
    cases hr : th.is_runnable with
    | false =>
      have hstep : minYieldLoop all i (th :: rest2) init = minYieldLoop all (i + 1) rest2 init := by
        simp [minYieldLoop, hr]
      rw [hstep]
      apply ih (i + 1) init hsuf2
      · intro hn k hk
        by_cases hki : k < i
        · exact hnone hn k hki
        · have hk2 : k = i := by omega
          rw [hk2, hruni, hr]
      · intro j0 hj0
        rcases hsome j0 hj0 with ⟨hji, hrun, hlex⟩
        refine ⟨by omega, hrun, ?_⟩
        intro k hk hkr
        by_cases hki : k < i
        · exact hlex k hki hkr
        · have hk2 : k = i := by omega
          rw [hk2, hruni, hr] at hkr
          cases hkr
    | true =>
      cases init with
      | none =>
        have hstep : minYieldLoop all i (th :: rest2) none = minYieldLoop all (i + 1) rest2 (some i) := by
          simp [minYieldLoop, hr]
        rw [hstep]
        apply ih (i + 1) (some i) hsuf2
        · intro hn; cases hn
        · intro j0 hj0
          injection hj0 with hj0
          subst hj0
          refine ⟨by omega, by rw [hruni]; exact hr, ?_⟩
          intro k hk hkr
          by_cases hki : k < i
          · rw [hnone rfl k hki] at hkr
            cases hkr
          · have hk2 : k = i := by omega
            subst hk2
            exact Or.inr ⟨rfl, Nat.le_refl _⟩
      | some j0 =>
        rcases hsome j0 rfl with ⟨hji, hrunj, hlexj⟩
        by_cases hyc : th.yield_count < ycAt all j0
        · have hstep : minYieldLoop all i (th :: rest2) (some j0) =
              minYieldLoop all (i + 1) rest2 (some i) := by
            simp [minYieldLoop, hr, hyc]
          rw [hstep]
          apply ih (i + 1) (some i) hsuf2
          · intro hn; cases hn
          · intro j1 hj1
            injection hj1 with hj1
            subst hj1
            refine ⟨by omega, by rw [hruni]; exact hr, ?_⟩
            intro k hk hkr
            by_cases hki : k < i
            · have hl := hlexj k hki hkr
              simp only [lexMin] at hl ⊢
              rw [hyci]
              rcases hl with hl | ⟨hl, _⟩ <;> omega
            · have hk2 : k = i := by omega
              subst hk2
              exact Or.inr ⟨rfl, Nat.le_refl _⟩
        · have hstep : minYieldLoop all i (th :: rest2) (some j0) =
              minYieldLoop all (i + 1) rest2 (some j0) := by
            simp [minYieldLoop, hr, hyc]
          rw [hstep]
          apply ih (i + 1) (some j0) hsuf2
          · intro hn; cases hn
          · intro j1 hj1
            injection hj1 with hj1
            subst hj1
            refine ⟨by omega, hrunj, ?_⟩
            intro k hk hkr
            by_cases hki : k < i
            · exact hlexj k hki hkr
            · have hk2 : k = i := by omega
              subst hk2
              simp only [lexMin]
              rw [hyci]
              omega

/-- C6: the initial candidate of a scheduling round is the active thread
whenever it is runnable; otherwise it is exactly the runnable thread with
the minimum voluntary-yield count, ties broken by the lowest identifier. -/
theorem schedule_initial_candidate (s : ThreadSet) (a : Nat) (ha : s.active = some a) :
    ((threadAt s a).is_runnable = true → initialCandidate s = some a) ∧
    ((threadAt s a).is_runnable = false →
      ∀ j, initialCandidate s = some j ↔
        (runnableAt s.threads j = true ∧
         ∀ k, runnableAt s.threads k = true → lexMin s.threads j k)) := by
  have hid : s.active_id = a := active_id_eq s a ha
  constructor
  · intro hr
    unfold initialCandidate
    rw [hid, if_pos hr]
  · intro hr j
    have hloop : initialCandidate s = minYieldLoop s.threads 0 s.threads none := by
      unfold initialCandidate
      rw [hid, if_neg (by simp [hr])]
    have hspec := minYieldLoop_spec s.threads s.threads 0 none
      (by intro j2; rw [Nat.zero_add])
      (by intro _ k hk; exact absurd hk (Nat.not_lt_zero k))
      (by intro j0 hj0; cases hj0)
    rw [hloop]
    constructor
    · intro hres
      exact hspec.2 j hres
    · rintro ⟨hrun, hlex⟩
      cases hres : minYieldLoop s.threads 0 s.threads none with
      | none =>
        have hfalse := hspec.1 hres j
        rw [hfalse] at hrun
        cases hrun
      | some j0 =>
        rcases hspec.2 j0 hres with ⟨hrun0, hlex0⟩
        rw [lexMin_antisymm s.threads j j0 (hlex j0 hrun0) (hlex0 j hrun)]

/-- Witness for C6 at a concrete thread set: the active thread 0 is
disabled, and the candidate is thread 2, the runnable thread with the
smaller yield count. -/
theorem schedule_initial_candidate_witness :
    sampleSet.active = some 0 ∧ (threadAt sampleSet 0).is_runnable = false ∧
      (initialCandidate sampleSet = some 2 ↔
        (runnableAt sampleSet.threads 2 = true ∧
         ∀ k, runnableAt sampleSet.threads k = true → lexMin sampleSet.threads 2 k)) :=
  ⟨rfl, by decide, (schedule_initial_candidate sampleSet 0 rfl).2 (by decide) 2⟩

/-- C7: at the end of a schedule call that selects a thread, every other
thread that was in the Yield state is transitioned back to Runnable, and
the selected thread's own state is unchanged. -/
theorem schedule_yield_reactivation (e e2 : Execution) (r : Bool) (t : Nat) (p2 : Path)
    (hdec : scheduleDecision e = (some t, p2))
    (h : e.schedule = SchedResult.ok e2 r) :
    (∀ i th, i ≠ t → e.threads.threads[i]? = some th → th.state = ThreadState.Yield →
      ∃ th2, e2.threads.threads[i]? = some th2 ∧ th2.state = ThreadState.Runnable) ∧
    (∀ th, e.threads.threads[t]? = some th →
      ∃ th2, e2.threads.threads[t]? = some th2 ∧ th2.state = th.state) := by
  cases hop : (threadAt e.threads t).operation with
  | some op =>
    rw [schedule_some_op e t p2 op hdec hop] at h
    cases h
    constructor
    · intro i th hne hth hY
      refine ⟨{ th with state := ThreadState.Runnable }, ?_, rfl⟩
      show (reactivateLoop 0 (e.threads.threads.set t _) (some t))[i]? = _
      rw [reactivateLoop_getq, getq_set_ne _ _ _ _ (fun hc => hne hc.symm), hth]
      simp only [Option.map_some']
      rw [if_pos ⟨(is_yield_iff th).mpr hY, by simpa using hne⟩]
    · intro th hth
      have hlt : t < e.threads.threads.length := getq_lt _ _ _ hth
      have hget : (reactivateLoop 0
          (e.threads.threads.set t
            { threadAt e.threads t with
                dpor_vv :=
                  bump ((e.objects.last_dependent_accesses op).foldl
                    (fun v a => joinVV v a.version) (threadAt e.threads t).dpor_vv) t })
          (some t))[t]? =
          some { threadAt e.threads t with
                   dpor_vv :=
                     bump ((e.objects.last_dependent_accesses op).foldl
                       (fun v a => joinVV v a.version) (threadAt e.threads t).dpor_vv) t } := by
        rw [reactivateLoop_getq, getq_set_self _ _ _ hlt]
        simp only [Option.map_some']
        rw [if_neg (fun hc => hc.2 (by simp))]
      refine ⟨_, hget, ?_⟩
      rw [threadAt_eq _ _ _ hth]
  | none =>
    rw [schedule_some_noop e t p2 hdec hop] at h
    cases h
    constructor
    · intro i th hne hth hY
      refine ⟨{ th with state := ThreadState.Runnable }, ?_, rfl⟩
      show (reactivateLoop 0 e.threads.threads (some t))[i]? = _
      rw [reactivateLoop_getq, hth]
      simp only [Option.map_some']
      rw [if_pos ⟨(is_yield_iff th).mpr hY, by simpa using hne⟩]
    · intro th hth
      refine ⟨th, ?_, rfl⟩
      show (reactivateLoop 0 e.threads.threads (some t))[t]? = _
      rw [reactivateLoop_getq, hth]
      simp only [Option.map_some']
      rw [if_neg (fun hc => hc.2 (by simp))]

/-- Witness for C7 at a concrete state: thread 0 is selected, and the
yielded thread 1 is reactivated while thread 0 keeps its state. -/
theorem schedule_yield_reactivation_witness :
    scheduleDecision sampleD = (some 0, sampleD2.path) ∧
      sampleD.schedule = SchedResult.ok sampleD2 false ∧
      ((∀ i th, i ≠ 0 → sampleD.threads.threads[i]? = some th →
          th.state = ThreadState.Yield →
          ∃ th2, sampleD2.threads.threads[i]? = some th2 ∧
            th2.state = ThreadState.Runnable) ∧
       (∀ th, sampleD.threads.threads[0]? = some th →
          ∃ th2, sampleD2.threads.threads[0]? = some th2 ∧ th2.state = th.state)) :=
  ⟨by decide, by decide,
    schedule_yield_reactivation sampleD sampleD2 false 0 sampleD2.path (by decide) (by decide)⟩

/-- C10: a schedule call that completes without aborting returns true
exactly when the thread selected by the ledger differs from the thread
that was active before the call. -/
theorem schedule_switch_flag (e e2 : Execution) (r : Bool) (curr : Nat)
    (hact : e.threads.active = some curr)
    (h : e.schedule = SchedResult.ok e2 r) :
    r = true ↔ (scheduleDecision e).1 ≠ some curr := by
  have hid : e.threads.active_id = curr := active_id_eq _ _ hact
  rcases hdec : scheduleDecision e with ⟨next, p2⟩
  simp only [hdec]
  cases next with
  | none =>
    cases hterm : e.threads.threads.all Thread.is_terminated with
    | true =>
      rw [schedule_none_terminated e p2 hdec hterm] at h
      cases h
      simp
    | false =>
      rw [schedule_none_deadlock e p2 hdec hterm] at h
      cases h
  | some t =>
    cases hop : (threadAt e.threads t).operation with
    | some op =>
      rw [schedule_some_op e t p2 op hdec hop] at h
      cases h
      rw [hid]
      simp only [decide_eq_true_eq, Ne, Option.some_inj]
      exact ⟨fun hh hc => hh hc.symm, fun hh hc => hh hc.symm⟩
    | none =>
      rw [schedule_some_noop e t p2 hdec hop] at h
      cases h
      rw [hid]
      simp only [decide_eq_true_eq, Ne, Option.some_inj]
      exact ⟨fun hh hc => hh hc.symm, fun hh hc => hh hc.symm⟩

/-- Witness for C10 at a concrete state: the ledger re-selects the already
active thread 0, and the call returns false. -/
theorem schedule_switch_flag_witness :
    sampleA.threads.active = some 0 ∧
      sampleA.schedule = SchedResult.ok sampleA2 false ∧
      (false = true ↔ (scheduleDecision sampleA).1 ≠ some 0) :=
  ⟨rfl, by decide, schedule_switch_flag sampleA sampleA2 false 0 rfl (by decide)⟩

theorem set_oob {α : Type} :
    ∀ (l : List α) (i : Nat) (a : α), l.length ≤ i → l.set i a = l := by
  intro l
  induction l with
  | nil => intro i a _; rfl
  | cons x xs ih =>
    intro i a h
    cases i with
    | zero => simp at h
    | succ m =>
      simp only [List.set]
      rw [ih m a (Nat.le_of_succ_le_succ h)]

theorem getq_set2 {α : Type} (B : List α) (n aid : Nat) (v w : α) (t : Nat) :
    ((B.set n v).set aid w)[t]? =
      if t = aid ∧ aid < B.length then some w
      else if t = n ∧ n < B.length then some v
      else B[t]? := by
  by_cases h1 : t = aid ∧ aid < B.length
  · rw [if_pos h1]
    rcases h1 with ⟨ht, hlt⟩
    subst ht
    exact getq_set_self _ _ _ (by simpa [List.length_set] using hlt)
  · rw [if_neg h1]
    by_cases h2 : t = n ∧ n < B.length
    · rw [if_pos h2]
      rcases h2 with ⟨ht, hlt⟩
      subst ht
      by_cases ha2 : t = aid
      · have hge : B.length ≤ aid := by
          by_contra hc
          exact h1 ⟨ha2, by omega⟩
        rw [set_oob _ _ _ (by simpa [List.length_set] using hge)]
        exact getq_set_self _ _ _ hlt
      · rw [getq_set_ne _ _ _ _ (fun hc => ha2 hc.symm)]
        exact getq_set_self _ _ _ hlt
    · rw [if_neg h2]
      have hrest : (B.set n v)[t]? = B[t]? := by
        by_cases hn2 : t = n
        · have hgen : B.length ≤ n := by
            by_contra hc
            exact h2 ⟨hn2, by omega⟩
          rw [set_oob _ _ _ hgen]
        · exact getq_set_ne _ _ _ _ (fun hc => hn2 hc.symm)
      by_cases ha2 : t = aid
      · have hge : B.length ≤ aid := by
          by_contra hc
          exact h1 ⟨ha2, by omega⟩
        rw [set_oob _ _ _ (by simpa [List.length_set] using hge)]
        exact hrest
      · rw [getq_set_ne _ _ _ _ (fun hc => ha2 hc.symm)]
        exact hrest

/-- C8: within one run, every entry of every thread's causality clock and
DPOR clock is non-decreasing under every orchestrator operation
(new_thread and schedule). -/
theorem clocks_monotone (op : RtOp) (e e2 : Execution)
    (h : applyOp op e = some e2) (t i : Nat) :
    causAt e t i ≤ causAt e2 t i ∧ dporAt e t i ≤ dporAt e2 t i := by
  cases op with
  | spawn =>
    simp only [applyOp] at h
    rcases Option.map_eq_some'.mp h with ⟨pr, hnt, he⟩
    rcases pr with ⟨tid, e3⟩
    have he2 : e3 = e2 := he
    subst he2
    unfold Execution.new_thread ThreadSet.new_thread at hnt
    by_cases hcap : e.threads.threads.length < e.threads.capacity
    · rw [if_pos hcap] at hnt
      cases ha : e.threads.active with
      | none => rw [ha] at hnt; simp at hnt
      | some aid =>
        rw [ha] at hnt
        by_cases hlt : aid < e.threads.threads.length
        · simp only [if_pos hlt, Option.some_inj] at hnt
          injection hnt with h1 h2
          subst h2
          simp only [causAt, dporAt]
          rw [getq_set2]
          by_cases hta : t = aid
          · rw [if_pos ⟨hta, by simp [List.length_append]; omega⟩]
            subst hta
            cases hw : e.threads.threads[t]? with
            | none => exact ⟨Nat.zero_le _, Nat.zero_le _⟩
            | some w =>
              have hwAt : threadAt e.threads t = w := threadAt_eq _ _ _ hw
              rw [hwAt]
              simp only [Option.map_some', Option.getD_some]
              exact ⟨entry_le_bump _ _ _, Nat.le_refl _⟩
          · rw [if_neg (fun hc => hta hc.1)]
            by_cases htn : t = e.threads.threads.length
            · have h0 : e.threads.threads[t]? = none := getq_ge _ _ (by omega)
              rw [h0]
              exact ⟨Nat.zero_le _, Nat.zero_le _⟩
            · rw [if_neg (fun hc => htn hc.1)]
              by_cases htl : t < e.threads.threads.length
              · rw [getq_append_lt _ _ _ htl]
                exact ⟨Nat.le_refl _, Nat.le_refl _⟩
              · have h0 : e.threads.threads[t]? = none := getq_ge _ _ (by omega)
                rw [h0]
                exact ⟨Nat.zero_le _, Nat.zero_le _⟩
        · simp only [if_neg hlt] at hnt
          exact Option.noConfusion hnt
    · rw [if_neg hcap] at hnt
      simp at hnt
  | sched =>
    simp only [applyOp] at h
    cases hs : e.schedule with
    | deadlock d => rw [hs] at h; cases h
    | ok x b =>
      rw [hs] at h
      simp only [Option.some_inj] at h
      subst h
      rcases hdec : scheduleDecision e with ⟨next, p2⟩
      cases next with
      | none =>
        cases hterm : e.threads.threads.all Thread.is_terminated with
        | true =>
          rw [schedule_none_terminated e p2 hdec hterm] at hs
          cases hs
          exact ⟨Nat.le_refl _, Nat.le_refl _⟩
        | false =>
          rw [schedule_none_deadlock e p2 hdec hterm] at hs
          cases hs
      | some t2 =>
        cases hop : (threadAt e.threads t2).operation with
        | none =>
          rw [schedule_some_noop e t2 p2 hdec hop] at hs
          cases hs
          simp only [causAt, dporAt]
          rw [reactivateLoop_getq]
          cases hw : e.threads.threads[t]? with
          | none => exact ⟨Nat.zero_le _, Nat.zero_le _⟩
          | some w =>
            simp only [Option.map_some', Option.getD_some]
            constructor
            · split <;> exact Nat.le_refl _
            · split <;> exact Nat.le_refl _
        | some op2 =>
          rw [schedule_some_op e t2 p2 op2 hdec hop] at hs
          cases hs
          simp only [causAt, dporAt]
          rw [reactivateLoop_getq]
          by_cases ht2 : t2 < e.threads.threads.length
          · by_cases htt : t = t2
            · subst htt
              rw [getq_set_self _ _ _ ht2]
              rcases hw : e.threads.threads[t]? with _ | w
              · exact ⟨Nat.zero_le _, Nat.zero_le _⟩
              · have hwAt : threadAt e.threads t = w := threadAt_eq _ _ _ hw
                rw [hwAt]
                simp only [Option.map_some', Option.getD_some]
                constructor
                · split <;> exact Nat.le_refl _
                · split <;>
                    exact Nat.le_trans (entry_le_foldl_join _ _ _) (entry_le_bump _ _ _)
            · rw [getq_set_ne _ _ _ _ (fun hc => htt hc.symm)]
              cases hw : e.threads.threads[t]? with
              | none => exact ⟨Nat.zero_le _, Nat.zero_le _⟩
              | some w =>
                simp only [Option.map_some', Option.getD_some]
                constructor
                · split <;> exact Nat.le_refl _
                · split <;> exact Nat.le_refl _
          · rw [set_oob _ _ _ (by omega)]
            cases hw : e.threads.threads[t]? with
            | none => exact ⟨Nat.zero_le _, Nat.zero_le _⟩
            | some w =>
              simp only [Option.map_some', Option.getD_some]
              constructor
              · split <;> exact Nat.le_refl _
              · split <;> exact Nat.le_refl _

/-- Witness for C8 at a concrete state: one scheduling decision from
sampleA leaves thread 0's clock entries non-decreasing. -/
theorem clocks_monotone_witness :
    applyOp RtOp.sched sampleA = some sampleA2 ∧
      (causAt sampleA 0 0 ≤ causAt sampleA2 0 0 ∧
       dporAt sampleA 0 0 ≤ dporAt sampleA2 0 0) :=
  ⟨by decide, clocks_monotone RtOp.sched sampleA sampleA2 (by decide) 0 0⟩

/-- Sequence of orchestrator states produced by a state and counter under
up to n successive advancements, stopping at the terminal signal. -/
def stepChain : Execution → Nat → Nat → List Execution
  | e, _, 0 => [e]
  | e, c, n + 1 =>
    e :: (match e.step c with
          | (none, _) => []
          | (some e2, c2) => stepChain e2 c2 n)

theorem step_some_id (e : Execution) (c : Nat) (e2 : Execution) (c2 : Nat)
    (h : e.step c = (some e2, c2)) : e2.id = ⟨c⟩ ∧ c2 = c + 1 := by
  unfold Execution.step at h
  dsimp only at h
  split at h
  · injection h with hA hB
    injection hA with hA2
    subst hA2
    exact ⟨rfl, hB.symm⟩
  · injection h with hA hB
    exact Option.noConfusion hA

theorem stepChain_ids_ge :
    ∀ (n : Nat) (e : Execution) (c : Nat), e.id.val < c →
      ∀ x ∈ stepChain e c n, e.id.val ≤ x.id.val := by
  intro n
  induction n with
  | zero =>
    intro e c _ x hx
    simp only [stepChain, List.mem_singleton] at hx
    rw [hx]
  | succ m ih =>
    intro e c hc x hx
    simp only [stepChain] at hx
    rcases List.mem_cons.mp hx with hx | hx
    · rw [hx]
    · rcases hstep : e.step c with ⟨o, c2⟩
      rw [hstep] at hx
      cases o with
      | none => simp at hx
      | some e4 =>
        have hids := step_some_id e c e4 c2 hstep
        have hv : e4.id.val = c := by rw [hids.1]
        have h4 : e4.id.val < c2 := by omega
        have hle := ih e4 c2 h4 x hx
        omega

theorem stepChain_pairwise :
    ∀ (n : Nat) (e : Execution) (c : Nat), e.id.val < c →
      List.Pairwise (fun a b => a.id.val < b.id.val) (stepChain e c n) := by
  intro n
  induction n with
  | zero =>
    intro e c _
    simp [stepChain]
  | succ m ih =>
    intro e c hc
    simp only [stepChain]
    rcases hstep : e.step c with ⟨o, c2⟩
    cases o with
    | none => simp
    | some e4 =>
      have hids := step_some_id e c e4 c2 hstep
      have hv : e4.id.val = c := by rw [hids.1]
      have h4 : e4.id.val < c2 := by omega
      show List.Pairwise (fun a b => a.id.val < b.id.val) (e :: stepChain e4 c2 m)
      refine List.Pairwise.cons ?_ (ih e4 c2 h4)
      intro x hx
      have hge := stepChain_ids_ge m e4 c2 h4 x hx
      omega

/-- C9: along any sequence of orchestrator states produced by new followed
by successive step calls, execution identities are strictly increasing —
each state's identity exceeds every one issued before it, and none is ever
issued twice. -/
theorem execution_ids_strict_mono (mt mb : Nat) (pb : Option Nat)
    (choices : List (Option Nat)) (steps : List Bool) (c n : Nat) :
    List.Pairwise (fun a b => a.id.val < b.id.val)
      (stepChain (Execution.new mt mb pb choices steps c).1
        (Execution.new mt mb pb choices steps c).2 n) := by
  apply stepChain_pairwise
  show c < c + 1
  omega

/-- Witness for C9 at concrete parameters: three advancements from a fresh
orchestrator at counter 0. -/
theorem execution_ids_strict_mono_witness :
    List.Pairwise (fun a b => a.id.val < b.id.val)
      (stepChain (Execution.new 2 4 none [some 0] [true, true] 0).1
        (Execution.new 2 4 none [some 0] [true, true] 0).2 3) :=
  execution_ids_strict_mono 2 4 none [some 0] [true, true] 0 3

end Loom
